import Mathlib

/-!
Verification of the Fleet Data Aggregation & Reconciliation Engine
(source: src/chevin.py) against its natural-language specification.

Each section shallowly embeds one part of the Python source as executable
Lean definitions (machine floats are modelled as exact rationals, Python
dicts as association lists or functions into Option, Python exceptions as
Option results), followed by theorems settling the frozen claims.
-/

/-! ## Reconciliation engine: device diff (sync_vehicles_with_geotab, lines 1020-1085)

A Geotab device record, restricted to the fields the reconciliation loop
reads and writes.  Group memberships are modelled as the list of group ids
(the source stores dicts of the shape `{'id': gid}`). -/

structure Device where
  serialNumber : String
  engineVIN : String
  vin : String
  name : String
  groups : List String
deriving DecidableEq, Repr

/-- One parsed roster row (`update` dict built by parse_csv_updates). -/
structure VehicleUpdate where
  serial : String
  extId : String
  vin : String
  name : String
  groups : List String
deriving DecidableEq, Repr

/-- The device-matching step (lines 1023-1028): first device whose serial
number and engine VIN both equal the row's values. -/
def findMatchingDevice (devices : List Device) (u : VehicleUpdate) : Option Device :=
  devices.find? (fun d => d.serialNumber == u.serial && d.engineVIN == u.vin)

/-- The inner `for group_id in update_group_ids` loop of the group rebuild
(lines 1066-1073): a requested id inside `changeable` and not already in
`new_group_ids` is appended to it, and appended to `group_changes` when it
is not a current member.  State is `(new_group_ids, group_changes)`. -/
def addReqLoop (changeable current : List String) :
    List String → List String × List String → List String × List String
  | [], st => st
  | gid :: rest, st =>
    if gid ∈ changeable ∧ ¬ gid ∈ st.1 then
      addReqLoop changeable current rest
        (st.1 ++ [gid], if ¬ gid ∈ current then st.2 ++ [gid] else st.2)
    else addReqLoop changeable current rest st

/-- The group-rebuild step (lines 1052-1073): keep the current groups that
are outside `changeable` verbatim (lines 1060-1063), then run the
requested-id loop.  Returns `(new_group_ids, group_changes)`. -/
def buildNewGroups (changeable current reqs : List String) : List String × List String :=
  let kept := current.filter (fun g => ¬ g ∈ changeable)
  addReqLoop changeable current reqs (kept, ([] : List String))

/-- The per-row diff-and-emit step for a matched device (lines 1034-1085):
returns the updated entity queued for the batched call, or `none` when
`needs_update` stays false.  In the source the queued entity always carries
`new_name`, the row VIN and `new_groups` (the assignments at 1041/1047 fire
exactly when the field differs, and 1078 is unconditional). -/
def processUpdate (changeable : List String) (d : Device) (u : VehicleUpdate) :
    Option Device :=
  let newName := if u.name ≠ "" then u.name else u.serial
  let bng := buildNewGroups changeable d.groups u.groups
  if d.name ≠ newName ∨ d.vin ≠ u.vin ∨ bng.2 ≠ [] then
    Option.some { d with name := newName, vin := u.vin, groups := bng.1 }
  else
    Option.none

/-- Membership of the requested-id loop's two result lists, for an
arbitrary starting state. -/
theorem addReqLoop_mem (changeable current : List String) :
    ∀ (reqs : List String) (st : List String × List String) (x : String),
      (x ∈ (addReqLoop changeable current reqs st).1 ↔
        (x ∈ st.1 ∨ (x ∈ reqs ∧ x ∈ changeable))) ∧
      (x ∈ (addReqLoop changeable current reqs st).2 ↔
        (x ∈ st.2 ∨ (x ∈ reqs ∧ x ∈ changeable ∧ ¬ x ∈ st.1 ∧ ¬ x ∈ current))) := by
  intro reqs
  induction reqs with
  | nil =>
    intro st x
    simp [addReqLoop]
  | cons gid rest ih =>
    intro st x
    by_cases hg : gid ∈ changeable ∧ ¬ gid ∈ st.1
    · simp only [addReqLoop, if_pos hg]
      by_cases hc : gid ∈ current
      · rw [if_neg (not_not_intro hc)]
        have hmem := ih (st.1 ++ [gid], st.2) x
        rcases hmem with ⟨h1, h2⟩
        rw [h1, h2]
        simp only [List.mem_append, List.mem_cons, List.not_mem_nil, or_false]
        by_cases hx : x = gid
        · subst hx
          constructor
          · tauto
          · constructor
            · tauto
            · rintro (h | h)
              · exact Or.inl h
              · exact absurd hc h.2.2.2
        · tauto
      · rw [if_pos hc]
        have hmem := ih (st.1 ++ [gid], st.2 ++ [gid]) x
        rcases hmem with ⟨h1, h2⟩
        rw [h1, h2]
        simp only [List.mem_append, List.mem_cons, List.not_mem_nil, or_false]
        by_cases hx : x = gid
        · subst hx
          constructor
          · constructor
            · intro _
              exact Or.inr ⟨Or.inl rfl, hg.1⟩
            · intro _
              exact Or.inl (Or.inr rfl)
          · constructor
            · intro _
              exact Or.inr ⟨Or.inl rfl, hg.1, hg.2, hc⟩
            · intro _
              exact Or.inl (Or.inr rfl)
        · constructor
          · constructor
            · rintro ((h | h) | ⟨hr, hch⟩)
              · exact Or.inl h
              · exact absurd h hx
              · exact Or.inr ⟨Or.inr hr, hch⟩
            · rintro (h | ⟨hor, hch⟩)
              · exact Or.inl (Or.inl h)
              · rcases hor with h | h
                · exact absurd h hx
                · exact Or.inr ⟨h, hch⟩
          · constructor
            · rintro ((h | h) | ⟨hr, hch, hni, hnc⟩)
              · exact Or.inl h
              · exact absurd h hx
              · exact Or.inr ⟨Or.inr hr, hch, fun hh => hni (Or.inl hh), hnc⟩
            · rintro (h | ⟨hor, hch, hni, hnc⟩)
              · exact Or.inl (Or.inl h)
              · rcases hor with h | h
                · exact absurd h hx
                · exact Or.inr ⟨h, hch, fun hh => hh.elim hni hx, hnc⟩
    · simp only [addReqLoop, if_neg hg]
      have hmem := ih st x
      rcases hmem with ⟨h1, h2⟩
      rw [h1, h2]
      simp only [List.mem_cons]
      by_cases hx : x = gid
      · subst hx
        constructor
        · constructor
          · rintro (h | ⟨hr, hch⟩)
            · exact Or.inl h
            · exact Or.inr ⟨Or.inr hr, hch⟩
          · rintro (h | ⟨_, hch⟩)
            · exact Or.inl h
            · refine Or.inl ?_
              by_contra hn
              exact hg ⟨hch, hn⟩
        · constructor
          · rintro (h | ⟨hr, hch, hni, hnc⟩)
            · exact Or.inl h
            · exact Or.inr ⟨Or.inr hr, hch, hni, hnc⟩
          · rintro (h | ⟨_, hch, hni, _⟩)
            · exact Or.inl h
            · exact absurd ⟨hch, hni⟩ hg
      · constructor
        · constructor
          · rintro (h | ⟨hr, hch⟩)
            · exact Or.inl h
            · exact Or.inr ⟨Or.inr hr, hch⟩
          · rintro (h | ⟨hor, hch⟩)
            · exact Or.inl h
            · rcases hor with h | h
              · exact absurd h hx
              · exact Or.inr ⟨h, hch⟩
        · constructor
          · rintro (h | ⟨hr, hch, hni, hnc⟩)
            · exact Or.inl h
            · exact Or.inr ⟨Or.inr hr, hch, hni, hnc⟩
          · rintro (h | ⟨hor, hch, hni, hnc⟩)
            · exact Or.inl h
            · rcases hor with h | h
              · exact absurd h hx
              · exact Or.inr ⟨h, hch, hni, hnc⟩

/-- Membership of `group_changes` produced by the group rebuild. -/
theorem buildNewGroups_changes_mem (changeable current reqs : List String) (x : String) :
    x ∈ (buildNewGroups changeable current reqs).2 ↔
      (x ∈ reqs ∧ x ∈ changeable ∧ ¬ x ∈ current) := by
  have h := (addReqLoop_mem changeable current reqs
    (current.filter (fun g => ¬ g ∈ changeable), ([] : List String)) x).2
  simp only [buildNewGroups]
  rw [h]
  simp only [List.not_mem_nil, false_or, List.mem_filter, decide_eq_true_eq]
  constructor
  · rintro ⟨hr, hch, _, hnc⟩
    exact ⟨hr, hch, hnc⟩
  · rintro ⟨hr, hch, hnc⟩
    exact ⟨hr, hch, fun hk => hnc hk.1, hnc⟩

/-- Membership of `new_group_ids` produced by the group rebuild. -/
theorem buildNewGroups_ids_mem (changeable current reqs : List String) (x : String) :
    x ∈ (buildNewGroups changeable current reqs).1 ↔
      ((x ∈ current ∧ ¬ x ∈ changeable) ∨ (x ∈ reqs ∧ x ∈ changeable)) := by
  have h := (addReqLoop_mem changeable current reqs
    (current.filter (fun g => ¬ g ∈ changeable), ([] : List String)) x).1
  simp only [buildNewGroups]
  rw [h]
  simp [List.mem_filter]

/-- C1 counterexample: a matched device whose name and VIN agree with its
roster row, whose only current group "X" is inside the managed scope, and
whose row requests no groups.  The computed new membership ([]) differs
from the current membership (["X"]), yet `needs_update` stays false and the
device is not queued. -/
theorem removal_only_change_not_queued :
    processUpdate ["X"]
        { serialNumber := "S1", engineVIN := "E1", vin := "V", name := "N", groups := ["X"] }
        { serial := "S1", extId := "1", vin := "V", name := "N", groups := [] }
      = Option.none ∧
    (buildNewGroups ["X"] ["X"] []).1 ≠ ["X"] := by
  constructor
  · rfl
  · decide

/-- C1 (amended): for a matched device/roster-row pair, the device is
queued in the batched update call iff the device's name differs from
`(row.name or row.serial)`, or its VIN differs from the row VIN, or some
requested group id inside the managed scope is not already among the
device's current groups.  (A membership difference that only removes
in-scope groups does not by itself queue the device; in particular a
device whose name, VIN and groups are identical to its row is not
queued.) -/
theorem processUpdate_isSome_iff (changeable : List String) (d : Device) (u : VehicleUpdate) :
    (processUpdate changeable d u).isSome = true ↔
      (d.name ≠ (if u.name ≠ "" then u.name else u.serial) ∨ d.vin ≠ u.vin ∨
        ∃ g, g ∈ u.groups ∧ g ∈ changeable ∧ ¬ g ∈ d.groups) := by
  have hch : (buildNewGroups changeable d.groups u.groups).2 ≠ [] ↔
      ∃ g, g ∈ u.groups ∧ g ∈ changeable ∧ ¬ g ∈ d.groups := by
    constructor
    · intro hne
      rcases List.exists_mem_of_ne_nil _ hne with ⟨g, hgmem⟩
      exact ⟨g, (buildNewGroups_changes_mem changeable d.groups u.groups g).mp hgmem⟩
    · rintro ⟨g, hgmem⟩
      intro hnil
      have := (buildNewGroups_changes_mem changeable d.groups u.groups g).mpr hgmem
      rw [hnil] at this
      exact List.not_mem_nil g this
  rw [← hch]
  unfold processUpdate
  by_cases hcond : d.name ≠ (if u.name ≠ "" then u.name else u.serial) ∨ d.vin ≠ u.vin ∨
      (buildNewGroups changeable d.groups u.groups).2 ≠ []
  · rw [if_pos hcond]
    exact iff_of_true rfl hcond
  · rw [if_neg hcond]
    exact iff_of_false (by simp) hcond

/-- Witness for C1's amended theorem at a concrete matched pair. -/
theorem processUpdate_isSome_iff_witness :
    (processUpdate ["in1", "in2"]
        { serialNumber := "S", engineVIN := "E", vin := "V", name := "N",
          groups := ["out", "in1"] }
        { serial := "S", extId := "1", vin := "V", name := "N",
          groups := ["in2", "bad"] }).isSome = true ↔
      (({ serialNumber := "S", engineVIN := "E", vin := "V", name := "N",
          groups := ["out", "in1"] } : Device).name ≠
          (if ("N" : String) ≠ "" then "N" else "S") ∨
        ("V" : String) ≠ "V" ∨
        ∃ g, g ∈ ["in2", "bad"] ∧ g ∈ ["in1", "in2"] ∧ ¬ g ∈ ["out", "in1"]) :=
  processUpdate_isSome_iff ["in1", "in2"]
    { serialNumber := "S", engineVIN := "E", vin := "V", name := "N",
      groups := ["out", "in1"] }
    { serial := "S", extId := "1", vin := "V", name := "N", groups := ["in2", "bad"] }

/-- C2: the membership set written into a queued update is exactly the
union of the device's current groups outside the managed scope (kept
verbatim) and the row's requested group ids inside the managed scope; a
requested id outside the managed scope never appears. -/
theorem queued_groups_spec (changeable : List String) (d : Device) (u : VehicleUpdate)
    (qd : Device) (h : processUpdate changeable d u = Option.some qd) :
    ∀ x, x ∈ qd.groups ↔
      ((x ∈ d.groups ∧ ¬ x ∈ changeable) ∨ (x ∈ u.groups ∧ x ∈ changeable)) := by
  intro x
  unfold processUpdate at h
  by_cases hcond : d.name ≠ (if u.name ≠ "" then u.name else u.serial) ∨ d.vin ≠ u.vin ∨
      (buildNewGroups changeable d.groups u.groups).2 ≠ []
  · rw [if_pos hcond] at h
    have hqd : qd.groups = (buildNewGroups changeable d.groups u.groups).1 := by
      cases h
      rfl
    rw [hqd]
    exact buildNewGroups_ids_mem changeable d.groups u.groups x
  · rw [if_neg hcond] at h
    exact absurd h (by simp)

/-- Witness for C2 at a concrete queued device: the out-of-scope current
group "out" is kept, the in-scope requested group "in2" is added, and the
out-of-scope requested group "bad" never appears. -/
theorem queued_groups_spec_witness :
    ∃ qd, processUpdate ["in1", "in2"]
        { serialNumber := "S", engineVIN := "E", vin := "V", name := "N",
          groups := ["out", "in1"] }
        { serial := "S", extId := "1", vin := "V", name := "N",
          groups := ["in2", "bad"] } = Option.some qd ∧
      "out" ∈ qd.groups ∧ "in2" ∈ qd.groups ∧ ¬ "bad" ∈ qd.groups := by
  refine ⟨{ serialNumber := "S", engineVIN := "E", vin := "V", name := "N",
            groups := ["out", "in2"] }, by decide, ?_⟩
  have h := queued_groups_spec ["in1", "in2"]
    { serialNumber := "S", engineVIN := "E", vin := "V", name := "N",
      groups := ["out", "in1"] }
    { serial := "S", extId := "1", vin := "V", name := "N", groups := ["in2", "bad"] }
    { serialNumber := "S", engineVIN := "E", vin := "V", name := "N",
      groups := ["out", "in2"] }
    (by decide)
  refine ⟨(h "out").mpr (by decide), (h "in2").mpr (by decide), fun hbad => ?_⟩
  have := (h "bad").mp hbad
  revert this
  decide

/-! ## Managed-group closure (get_groups_change, lines 864-888)

The group table is an association list from group id to the list of child
group ids (the source stores child dicts; a child with a missing or empty
id is skipped by the `if child_id:` guard, modelled here as the id "").
The Python function recurses without a visited set; the embedding makes
the recursion depth explicit with a fuel parameter: `Option.none` means
the recursion has not finished within the given depth, so divergence of
the source is "for every fuel the result is none". -/

def lookupGroup (groups : List (String × List String)) (gid : String) : List String :=
  match groups.find? (fun p => p.fst == gid) with
  | Option.some p => p.snd
  | Option.none => []

mutual

/-- Fueled embedding of `get_groups_change(group_id, groups, groups_change)`. -/
def getGroupsChange (fuel : Nat) (groups : List (String × List String))
    (gid : String) (acc : List String) : Option (List String) :=
  match fuel with
  | 0 => Option.none
  | Nat.succ f => childLoop f groups (lookupGroup groups gid) acc

/-- The `for child in children` loop body of get_groups_change: append the
child id and recurse from it before moving to the next child. -/
def childLoop (fuel : Nat) (groups : List (String × List String))
    (cs : List String) (acc : List String) : Option (List String) :=
  match fuel with
  | 0 => Option.none
  | Nat.succ f =>
    match cs with
    | [] => Option.some acc
    | c :: rest =>
      if c ≠ "" then
        match getGroupsChange f groups c (acc ++ [c]) with
        | Option.none => Option.none
        | Option.some acc2 => childLoop f groups rest acc2
      else childLoop f groups rest acc

end

/-- The parent-to-child edge relation of the group table: `c` is a child
entry of `p` with a nonempty id. -/
def childRel (groups : List (String × List String)) (p c : String) : Prop :=
  c ∈ lookupGroup groups p ∧ c ≠ ""

/-- A group table is acyclic when no group is its own proper descendant. -/
def Acyclic (groups : List (String × List String)) : Prop :=
  ∀ g, ¬ Relation.TransGen (childRel groups) g g

/-- Fuel monotonicity: a finished run stays the same with more fuel. -/
theorem getGroupsChange_mono (fuel : Nat) :
    (∀ fuel', fuel ≤ fuel' → ∀ groups gid acc l,
      getGroupsChange fuel groups gid acc = Option.some l →
      getGroupsChange fuel' groups gid acc = Option.some l) ∧
    (∀ fuel', fuel ≤ fuel' → ∀ groups cs acc l,
      childLoop fuel groups cs acc = Option.some l →
      childLoop fuel' groups cs acc = Option.some l) := by
  induction fuel with
  | zero =>
    constructor
    · intro fuel' _ groups gid acc l h
      simp [getGroupsChange] at h
    · intro fuel' _ groups cs acc l h
      simp [childLoop] at h
  | succ f ih =>
    constructor
    · intro fuel' hle groups gid acc l h
      cases fuel' with
      | zero => exact absurd hle (by omega)
      | succ f' =>
        have hle' : f ≤ f' := Nat.succ_le_succ_iff.mp hle
        simp only [getGroupsChange] at h ⊢
        exact ih.2 f' hle' groups (lookupGroup groups gid) acc l h
    · intro fuel' hle groups cs acc l h
      cases fuel' with
      | zero => exact absurd hle (by omega)
      | succ f' =>
        have hle' : f ≤ f' := Nat.succ_le_succ_iff.mp hle
        cases cs with
        | nil =>
          simp only [childLoop] at h ⊢
          exact h
        | cons c rest =>
          simp only [childLoop] at h ⊢
          by_cases hc : c ≠ ""
          · rw [if_pos hc] at h ⊢
            cases hgc : getGroupsChange f groups c (acc ++ [c]) with
            | none =>
              rw [hgc] at h
              exact absurd h (by simp)
            | some acc2 =>
              rw [hgc] at h
              rw [ih.1 f' hle' groups c (acc ++ [c]) acc2 hgc]
              exact ih.2 f' hle' groups rest acc2 l h
          · rw [if_neg hc] at h ⊢
            exact ih.2 f' hle' groups rest acc l h

/-- One step of descendant reachability: `x` is a proper descendant of
`gid` iff it is a nonempty child entry of `gid` or a proper descendant of
one. -/
theorem transGen_head_equiv (groups : List (String × List String)) (gid x : String) :
    Relation.TransGen (childRel groups) gid x ↔
      ∃ c, c ∈ lookupGroup groups gid ∧ c ≠ "" ∧
        (x = c ∨ Relation.TransGen (childRel groups) c x) := by
  constructor
  · intro h
    rcases Relation.TransGen.head'_iff.mp h with ⟨b, hb, hbx⟩
    rcases Relation.reflTransGen_iff_eq_or_transGen.mp hbx with heq | htg
    · exact ⟨b, hb.1, hb.2, Or.inl heq⟩
    · exact ⟨b, hb.1, hb.2, Or.inr htg⟩
  · rintro ⟨c, hcm, hcne, hx | htg⟩
    · subst hx
      exact Relation.TransGen.single ⟨hcm, hcne⟩
    · exact Relation.TransGen.head ⟨hcm, hcne⟩ htg

/-- Whenever the fueled recursion finishes, the returned accumulator holds
exactly the starting accumulator plus the proper descendants of the
starting group id. -/
theorem getGroupsChange_mem (fuel : Nat) :
    (∀ groups gid acc l, getGroupsChange fuel groups gid acc = Option.some l →
      ∀ x, x ∈ l ↔ (x ∈ acc ∨ Relation.TransGen (childRel groups) gid x)) ∧
    (∀ groups cs acc l, childLoop fuel groups cs acc = Option.some l →
      ∀ x, x ∈ l ↔ (x ∈ acc ∨ ∃ c, c ∈ cs ∧ c ≠ "" ∧
        (x = c ∨ Relation.TransGen (childRel groups) c x))) := by
  induction fuel with
  | zero =>
    constructor
    · intro groups gid acc l h
      simp [getGroupsChange] at h
    · intro groups cs acc l h
      simp [childLoop] at h
  | succ f ih =>
    constructor
    · intro groups gid acc l h x
      simp only [getGroupsChange] at h
      rw [ih.2 groups (lookupGroup groups gid) acc l h x, transGen_head_equiv]
    · intro groups cs acc l h x
      cases cs with
      | nil =>
        simp only [childLoop] at h
        cases h
        simp
      | cons c rest =>
        simp only [childLoop] at h
        by_cases hc : c ≠ ""
        · rw [if_pos hc] at h
          cases hgc : getGroupsChange f groups c (acc ++ [c]) with
          | none =>
            rw [hgc] at h
            exact absurd h (by simp)
          | some acc2 =>
            rw [hgc] at h
            have h1 := ih.1 groups c (acc ++ [c]) acc2 hgc
            have h2 := ih.2 groups rest acc2 l h
            rw [h2 x, h1 x]
            simp only [List.mem_append, List.mem_cons, List.not_mem_nil, or_false]
            constructor
            · rintro (((ha | hxc) | htg) | ⟨c', hc', hne', hd'⟩)
              · exact Or.inl ha
              · exact Or.inr ⟨c, Or.inl rfl, hc, Or.inl hxc⟩
              · exact Or.inr ⟨c, Or.inl rfl, hc, Or.inr htg⟩
              · exact Or.inr ⟨c', Or.inr hc', hne', hd'⟩
            · rintro (ha | ⟨c', hc' | hc', hne', hd'⟩)
              · exact Or.inl (Or.inl (Or.inl ha))
              · subst hc'
                rcases hd' with hxc | htg
                · exact Or.inl (Or.inl (Or.inr hxc))
                · exact Or.inl (Or.inr htg)
              · exact Or.inr ⟨c', hc', hne', hd'⟩
        · rw [if_neg hc] at h
          have h2 := ih.2 groups rest acc l h
          rw [h2 x]
          simp only [List.mem_cons]
          constructor
          · rintro (ha | ⟨c', hc', hne', hd'⟩)
            · exact Or.inl ha
            · exact Or.inr ⟨c', Or.inr hc', hne', hd'⟩
          · rintro (ha | ⟨c', hc' | hc', hne', hd'⟩)
            · exact Or.inl ha
            · subst hc'
              exact absurd hne' hc
            · exact Or.inr ⟨c', hc', hne', hd'⟩

/-- Recursion-depth bound: every descending child chain from `gid` is
shorter than `k`. -/
def BoundedDepth (groups : List (String × List String)) : Nat → String → Prop
  | 0, gid => ∀ c, ¬ childRel groups gid c
  | Nat.succ k, gid => ∀ c, childRel groups gid c → BoundedDepth groups k c

/-- The child loop finishes given that the recursion from every nonempty
child id finishes. -/
theorem childLoop_terminates (groups : List (String × List String)) :
    ∀ (cs : List String),
      (∀ c, c ∈ cs → c ≠ "" → ∀ acc, ∃ fuel l,
        getGroupsChange fuel groups c acc = Option.some l) →
      ∀ acc, ∃ fuel l, childLoop fuel groups cs acc = Option.some l := by
  intro cs
  induction cs with
  | nil =>
    intro _ acc
    exact ⟨1, acc, rfl⟩
  | cons c rest ih =>
    intro H acc
    by_cases hc : c ≠ ""
    · rcases H c (List.mem_cons_self c rest) hc (acc ++ [c]) with ⟨f1, acc2, h1⟩
      rcases ih (fun c' hc' hne' acc' => H c' (List.mem_cons_of_mem c hc') hne' acc') acc2 with
        ⟨f2, l, h2⟩
      refine ⟨Nat.max f1 f2 + 1, l, ?_⟩
      simp only [childLoop]
      rw [if_pos hc]
      rw [(getGroupsChange_mono f1).1 (Nat.max f1 f2) (Nat.le_max_left f1 f2) groups c
        (acc ++ [c]) acc2 h1]
      exact (getGroupsChange_mono f2).2 (Nat.max f1 f2) (Nat.le_max_right f1 f2) groups rest
        acc2 l h2
    · rcases ih (fun c' hc' hne' acc' => H c' (List.mem_cons_of_mem c hc') hne' acc') acc with
        ⟨f2, l, h2⟩
      refine ⟨f2 + 1, l, ?_⟩
      simp only [childLoop]
      rw [if_neg hc]
      exact h2

/-- Depth-bounded recursions finish with some fuel. -/
theorem getGroupsChange_terminates (groups : List (String × List String)) :
    ∀ (k : Nat) (gid : String), BoundedDepth groups k gid →
      ∀ acc, ∃ fuel l, getGroupsChange fuel groups gid acc = Option.some l := by
  intro k
  induction k with
  | zero =>
    intro gid hb acc
    have H : ∀ c, c ∈ lookupGroup groups gid → c ≠ "" → ∀ acc', ∃ fuel l,
        getGroupsChange fuel groups c acc' = Option.some l := by
      intro c hcm hcne
      exact absurd ⟨hcm, hcne⟩ (hb c)
    rcases childLoop_terminates groups (lookupGroup groups gid) H acc with ⟨f, l, h⟩
    exact ⟨f + 1, l, h⟩
  | succ k ih =>
    intro gid hb acc
    have H : ∀ c, c ∈ lookupGroup groups gid → c ≠ "" → ∀ acc', ∃ fuel l,
        getGroupsChange fuel groups c acc' = Option.some l := by
      intro c hcm hcne acc'
      exact ih c (hb c ⟨hcm, hcne⟩) acc'
    rcases childLoop_terminates groups (lookupGroup groups gid) H acc with ⟨f, l, h⟩
    exact ⟨f + 1, l, h⟩

/-- The set of table keys reflexively-transitively reachable from `gid`. -/
def reachSet (groups : List (String × List String)) (gid : String) : Set String :=
  {k | k ∈ groups.map Prod.fst ∧ Relation.ReflTransGen (childRel groups) gid k}

/-- Counting measure on reachable keys, used to bound recursion depth. -/
noncomputable def reachCard (groups : List (String × List String)) (gid : String) : Nat :=
  (reachSet groups gid).ncard

/-- A group id with a child entry is itself a key of the table. -/
theorem key_of_childRel {groups : List (String × List String)} {p c : String}
    (h : childRel groups p c) : p ∈ groups.map Prod.fst := by
  rcases h with ⟨hm, _⟩
  unfold lookupGroup at hm
  cases hf : groups.find? (fun q => q.fst == p) with
  | none =>
    rw [hf] at hm
    exact absurd hm (List.not_mem_nil c)
  | some q =>
    rw [hf] at hm
    have hq : q ∈ groups := List.mem_of_find?_eq_some hf
    have hpq := List.find?_some hf
    have hqp : q.fst = p := by
      simpa using hpq
    subst hqp
    exact List.mem_map_of_mem Prod.fst hq

/-- In an acyclic table, stepping to a child strictly shrinks the set of
reachable keys. -/
theorem reachCard_lt (groups : List (String × List String)) (hA : Acyclic groups)
    {p c : String} (h : childRel groups p c) : reachCard groups c < reachCard groups p := by
  have hfin : (reachSet groups p).Finite := by
    apply Set.Finite.subset (groups.map Prod.fst).finite_toSet
    intro k hk
    exact hk.1
  have hsub : reachSet groups c ⊆ reachSet groups p := by
    intro k hk
    exact ⟨hk.1, Relation.ReflTransGen.head h hk.2⟩
  have hpmem : p ∈ reachSet groups p := ⟨key_of_childRel h, Relation.ReflTransGen.refl⟩
  have hpnot : ¬ p ∈ reachSet groups c := by
    intro hk
    exact hA p (Relation.TransGen.head' h hk.2)
  have hne : reachSet groups c ≠ reachSet groups p := by
    intro he
    rw [← he] at hpmem
    exact hpnot hpmem
  exact Set.ncard_lt_ncard (Set.ssubset_iff_subset_ne.mpr ⟨hsub, hne⟩) hfin

/-- Acyclic tables admit a uniform depth bound from any starting id. -/
theorem bounded_of_acyclic (groups : List (String × List String)) (hA : Acyclic groups) :
    ∀ (n : Nat) (gid : String), reachCard groups gid ≤ n → BoundedDepth groups n gid := by
  intro n
  induction n with
  | zero =>
    intro gid hle c hc
    have := reachCard_lt groups hA hc
    omega
  | succ n ih =>
    intro gid hle c hc
    have := reachCard_lt groups hA hc
    exact ih c (by omega)

/-- C4: for every acyclic group table, the recursion from a root id R
finishes, and the returned list holds exactly the proper descendants of R
(children, their children, transitively), excluding R itself. -/
theorem closure_eq_descendants (groups : List (String × List String)) (R : String)
    (hA : Acyclic groups) :
    ∃ fuel l, getGroupsChange fuel groups R [] = Option.some l ∧
      (∀ x, x ∈ l ↔ Relation.TransGen (childRel groups) R x) ∧ ¬ R ∈ l := by
  have hb := bounded_of_acyclic groups hA (reachCard groups R) R (le_refl _)
  rcases getGroupsChange_terminates groups (reachCard groups R) R hb [] with ⟨fuel, l, h⟩
  refine ⟨fuel, l, h, ?_, ?_⟩
  · intro x
    have hx := (getGroupsChange_mem fuel).1 groups R [] l h x
    simpa using hx
  · intro hR
    rcases ((getGroupsChange_mem fuel).1 groups R [] l h R).mp hR with h0 | htg
    · exact List.not_mem_nil R h0
    · exact hA R htg

/-- A rank function increasing along child edges makes a table acyclic. -/
theorem acyclic_of_rank (groups : List (String × List String)) (rank : String → Nat)
    (h : ∀ p c, childRel groups p c → rank p < rank c) : Acyclic groups := by
  have hmono : ∀ a b, Relation.TransGen (childRel groups) a b → rank a < rank b := by
    intro a b htg
    induction htg with
    | single hr => exact h _ _ hr
    | tail _ hr ih => exact lt_trans ih (h _ _ hr)
  intro g htg
  exact absurd (hmono g g htg) (lt_irrefl _)

/-- The spec's example table: root "R" with children "A","B"; "A" with
child "C". -/
def exGroups : List (String × List String) := [("R", ["A", "B"]), ("A", ["C"])]

/-- The example table is acyclic. -/
theorem exGroups_acyclic : Acyclic exGroups := by
  apply acyclic_of_rank exGroups
    (fun s => if s = "R" then 0 else if s = "A" then 1 else if s = "B" then 1 else 2)
  intro p c hpc
  rcases hpc with ⟨hm, _⟩
  by_cases hp : p = "R"
  · subst hp
    have hL : lookupGroup exGroups "R" = ["A", "B"] := by decide
    rw [hL] at hm
    simp only [List.mem_cons, List.not_mem_nil, or_false] at hm
    rcases hm with rfl | rfl
    · decide
    · decide
  · by_cases hpA : p = "A"
    · subst hpA
      have hL : lookupGroup exGroups "A" = ["C"] := by decide
      rw [hL] at hm
      simp only [List.mem_cons, List.not_mem_nil, or_false] at hm
      subst hm
      decide
    · have hlook : lookupGroup exGroups p = [] := by
        unfold lookupGroup exGroups
        rw [List.find?_cons_of_neg, List.find?_cons_of_neg, List.find?_nil]
        · simp only [beq_iff_eq]
          exact fun he => hpA he.symm
        · simp only [beq_iff_eq]
          exact fun he => hp he.symm
      rw [hlook] at hm
      exact absurd hm (List.not_mem_nil c)

/-- Witness for C4 at the spec's example: the closure of "R" is exactly
{"A", "B", "C"} (as a list, in visit order). -/
theorem closure_eq_descendants_witness :
    (Acyclic exGroups ∧
      ∃ fuel l, getGroupsChange fuel exGroups "R" [] = Option.some l ∧
        (∀ x, x ∈ l ↔ Relation.TransGen (childRel exGroups) "R" x) ∧ ¬ "R" ∈ l) ∧
    getGroupsChange 20 exGroups "R" [] = Option.some ["A", "C", "B"] :=
  ⟨⟨exGroups_acyclic, closure_eq_descendants exGroups "R" exGroups_acyclic⟩, by decide⟩

/-- A two-node cyclic table: "A" is a child of "B" and vice versa. -/
def cycGroups : List (String × List String) := [("A", ["B"]), ("B", ["A"])]

/-- No fuel suffices for the cyclic table: the recursion never finishes. -/
theorem cycGroups_no_fuel :
    ∀ fuel : Nat,
      (∀ acc, getGroupsChange fuel cycGroups "A" acc = Option.none ∧
        getGroupsChange fuel cycGroups "B" acc = Option.none) ∧
      (∀ acc, childLoop fuel cycGroups ["B"] acc = Option.none ∧
        childLoop fuel cycGroups ["A"] acc = Option.none) := by
  intro fuel
  induction fuel with
  | zero => exact ⟨fun _ => ⟨rfl, rfl⟩, fun _ => ⟨rfl, rfl⟩⟩
  | succ f ih =>
    constructor
    · intro acc
      constructor
      · have hL : lookupGroup cycGroups "A" = ["B"] := by decide
        simp only [getGroupsChange, hL]
        exact (ih.2 acc).1
      · have hL : lookupGroup cycGroups "B" = ["A"] := by decide
        simp only [getGroupsChange, hL]
        exact (ih.2 acc).2
    · intro acc
      constructor
      · simp only [childLoop]
        rw [if_pos (by decide : ("B" : String) ≠ "")]
        rw [(ih.1 (acc ++ ["B"])).2]
      · simp only [childLoop]
        rw [if_pos (by decide : ("A" : String) ≠ "")]
        rw [(ih.1 (acc ++ ["A"])).1]

/-- C3: the source's get_groups_change tracks no visited set, so on a
cyclic group table the recursion from "A" never finishes — for every
recursion-depth budget the fueled embedding returns none.  (In Python this
is unbounded recursion ending in RecursionError, contradicting the spec's
termination requirement.) -/
theorem getGroupsChange_diverges_on_cycle :
    ∀ (fuel : Nat) (acc : List String),
      getGroupsChange fuel cycGroups "A" acc = Option.none :=
  fun fuel acc => ((cycGroups_no_fuel fuel).1 acc).1

/-! ## Latest-value reduction (cache_batch_data, lines 164-192)

One StatusData record as read by the reduction loop: the device reference
id (`data.get('device', {}).get('id', '')`, "" when missing), the
`dateTime` string, and an opaque payload standing for the remaining fields
of the record.  Python's `>` on strings is code-point lexicographic
comparison, embedded below as `pyStrLt` over the character list. -/

/-- Python's `<` on strings: code-point lexicographic order. -/
def pyStrLt : List Char → List Char → Bool
  | [], [] => false
  | [], _ :: _ => true
  | _ :: _, [] => false
  | a :: as, b :: bs =>
    if a.toNat < b.toNat then true
    else if b.toNat < a.toNat then false
    else pyStrLt as bs

theorem pyStrLt_irrefl : ∀ l : List Char, pyStrLt l l = false := by
  intro l
  induction l with
  | nil => rfl
  | cons a as ih =>
    simp only [pyStrLt]
    rw [if_neg (Nat.lt_irrefl a.toNat), if_neg (Nat.lt_irrefl a.toNat)]
    exact ih

theorem pyStrLt_asymm : ∀ a b : List Char, pyStrLt a b = true → pyStrLt b a = false := by
  intro a
  induction a with
  | nil =>
    intro b h
    cases b with
    | nil => exact absurd h (by decide)
    | cons c cs => rfl
  | cons x xs ih =>
    intro b h
    cases b with
    | nil => exact absurd h (by simp [pyStrLt])
    | cons y ys =>
      simp only [pyStrLt] at h ⊢
      by_cases hxy : x.toNat < y.toNat
      · rw [if_neg (Nat.lt_asymm hxy), if_pos hxy]
      · rw [if_neg hxy] at h
        by_cases hyx : y.toNat < x.toNat
        · rw [if_pos hyx] at h
          exact absurd h (by simp)
        · rw [if_neg hyx] at h
          rw [if_neg hyx, if_neg hxy]
          exact ih ys h

structure StatusData where
  deviceId : String
  dateTime : String
  payload : Nat
deriving DecidableEq, Repr

/-- One iteration of the reduction loop (lines 171-176 and 186-191): skip
records with an empty device id; otherwise install the record if the
device is unseen or the record's dateTime compares strictly greater than
the cached one (ties keep the earlier record). -/
def cacheStep (cache : String → Option StatusData) (data : StatusData) :
    String → Option StatusData :=
  if data.deviceId ≠ "" then
    match cache data.deviceId with
    | Option.none => fun d => if d = data.deviceId then Option.some data else cache d
    | Option.some old =>
      if pyStrLt old.dateTime.data data.dateTime.data then
        fun d => if d = data.deviceId then Option.some data else cache d
      else cache
  else cache

/-- The whole reduction: fold the fetched batch over an empty per-device
cache (used identically for the odometer and the engine-hours batches). -/
def cacheBatch (l : List StatusData) : String → Option StatusData :=
  l.foldl cacheStep (fun _ => Option.none)

/-- A step never touches entries of other devices. -/
theorem cacheStep_other (cache : String → Option StatusData) (data : StatusData)
    (d : String) (h : d ≠ data.deviceId) : cacheStep cache data d = cache d := by
  unfold cacheStep
  by_cases he : data.deviceId ≠ ""
  · rw [if_pos he]
    cases cache data.deviceId with
    | none =>
      show (if d = data.deviceId then Option.some data else cache d) = cache d
      rw [if_neg h]
    | some old =>
      show (if pyStrLt old.dateTime.data data.dateTime.data = true then
        (fun d => if d = data.deviceId then Option.some data else cache d) else cache) d
        = cache d
      by_cases hlt : pyStrLt old.dateTime.data data.dateTime.data = true
      · rw [if_pos hlt]
        show (if d = data.deviceId then Option.some data else cache d) = cache d
        rw [if_neg h]
      · rw [if_neg hlt]
  · rw [if_neg he]

/-- A step at the record's own (nonempty) device id. -/
theorem cacheStep_self (cache : String → Option StatusData) (data : StatusData)
    (he : data.deviceId ≠ "") :
    cacheStep cache data data.deviceId =
      match cache data.deviceId with
      | Option.none => Option.some data
      | Option.some old =>
        if pyStrLt old.dateTime.data data.dateTime.data then Option.some data
        else Option.some old := by
  unfold cacheStep
  rw [if_pos he]
  cases hcd : cache data.deviceId with
  | none =>
    show (if data.deviceId = data.deviceId then Option.some data else cache data.deviceId) = _
    rw [if_pos rfl]
  | some old =>
    show (if pyStrLt old.dateTime.data data.dateTime.data = true then
      (fun d => if d = data.deviceId then Option.some data else cache d) else cache)
        data.deviceId
      = (if pyStrLt old.dateTime.data data.dateTime.data = true then Option.some data
        else Option.some old)
    by_cases hlt : pyStrLt old.dateTime.data data.dateTime.data = true
    · rw [if_pos hlt, if_pos hlt]
      show (if data.deviceId = data.deviceId then Option.some data else cache data.deviceId) = _
      rw [if_pos rfl]
    · rw [if_neg hlt, if_neg hlt]
      exact hcd

/-- Once the cache holds a record at least as recent as every remaining
record for its device, it keeps holding it. -/
theorem cacheFold_keeps (r : StatusData) (d : String) :
    ∀ (l : List StatusData) (cache : String → Option StatusData),
      cache d = Option.some r →
      (∀ x, x ∈ l → x.deviceId = d → pyStrLt r.dateTime.data x.dateTime.data = false) →
      List.foldl cacheStep cache l d = Option.some r := by
  intro l
  induction l with
  | nil =>
    intro cache hc _
    exact hc
  | cons a t ih =>
    intro cache hc hmax
    have hstep : cacheStep cache a d = Option.some r := by
      by_cases hd : d = a.deviceId
      · subst hd
        by_cases he : a.deviceId ≠ ""
        · rw [cacheStep_self cache a he, hc]
          show (if pyStrLt r.dateTime.data a.dateTime.data then Option.some a
            else Option.some r) = Option.some r
          rw [hmax a (List.mem_cons_self a t) rfl]
          rw [if_neg (by simp)]
        · unfold cacheStep
          rw [if_neg he]
          exact hc
      · rw [cacheStep_other cache a d hd]
        exact hc
    simp only [List.foldl_cons]
    exact ih (cacheStep cache a) hstep
      (fun x hx hxd => hmax x (List.mem_cons_of_mem a hx) hxd)

/-- If the strict latest record for device `d` is in the remaining batch
and the current cache entry for `d` (if any) is strictly older, the fold
ends with exactly that record. -/
theorem cacheFold_latest (r : StatusData) (d : String) (hd : d ≠ "")
    (hrd : r.deviceId = d) :
    ∀ (l : List StatusData) (cache : String → Option StatusData),
      r ∈ l →
      (∀ x, x ∈ l → x.deviceId = d → x ≠ r →
        pyStrLt x.dateTime.data r.dateTime.data = true) →
      (cache d = Option.none ∨
        ∃ c, cache d = Option.some c ∧ pyStrLt c.dateTime.data r.dateTime.data = true) →
      List.foldl cacheStep cache l d = Option.some r := by
  intro l
  induction l with
  | nil =>
    intro cache hmem _ _
    exact absurd hmem (List.not_mem_nil r)
  | cons a t ih =>
    intro cache hmem hmax hcache
    by_cases ha : a = r
    · subst ha
      have he : a.deviceId ≠ "" := by
        rw [hrd]
        exact hd
      have hstep : cacheStep cache a d = Option.some a := by
        rw [← hrd]
        rw [cacheStep_self cache a he]
        rcases hcache with hn | ⟨c, hcs, hlt⟩
        · rw [← hrd] at hn
          rw [hn]
        · rw [← hrd] at hcs
          rw [hcs]
          show (if pyStrLt c.dateTime.data a.dateTime.data then Option.some a
            else Option.some c) = Option.some a
          rw [hlt, if_pos rfl]
      simp only [List.foldl_cons]
      exact cacheFold_keeps a d t (cacheStep cache a) hstep
        (fun x hx hxd => by
          by_cases hxr : x = a
          · subst hxr
            exact pyStrLt_irrefl x.dateTime.data
          · exact pyStrLt_asymm x.dateTime.data a.dateTime.data
              (hmax x (List.mem_cons_of_mem a hx) hxd hxr))
    · have hmem' : r ∈ t := by
        rcases List.mem_cons.mp hmem with he | ht
        · exact absurd he.symm ha
        · exact ht
      have hmax' : ∀ x, x ∈ t → x.deviceId = d → x ≠ r →
          pyStrLt x.dateTime.data r.dateTime.data = true :=
        fun x hx => hmax x (List.mem_cons_of_mem a hx)
      by_cases hda : d = a.deviceId
      · have halt : pyStrLt a.dateTime.data r.dateTime.data = true :=
          hmax a (List.mem_cons_self a t) hda.symm ha
        have he : a.deviceId ≠ "" := by
          rw [← hda]
          exact hd
        have hcache' : cacheStep cache a d = Option.none ∨
            ∃ c, cacheStep cache a d = Option.some c ∧
              pyStrLt c.dateTime.data r.dateTime.data = true := by
          subst hda
          rw [cacheStep_self cache a he]
          rcases hcache with hn | ⟨c, hcs, hlt⟩
          · rw [hn]
            exact Or.inr ⟨a, rfl, halt⟩
          · rw [hcs]
            by_cases hlt2 : pyStrLt c.dateTime.data a.dateTime.data = true
            · refine Or.inr ⟨a, ?_, halt⟩
              show (if pyStrLt c.dateTime.data a.dateTime.data then Option.some a
                else Option.some c) = Option.some a
              rw [if_pos hlt2]
            · refine Or.inr ⟨c, ?_, hlt⟩
              show (if pyStrLt c.dateTime.data a.dateTime.data then Option.some a
                else Option.some c) = Option.some c
              rw [if_neg hlt2]
        simp only [List.foldl_cons]
        exact ih (cacheStep cache a) hmem' hmax' hcache'
      · have hcache' : cacheStep cache a d = Option.none ∨
            ∃ c, cacheStep cache a d = Option.some c ∧
              pyStrLt c.dateTime.data r.dateTime.data = true := by
          rw [cacheStep_other cache a d hda]
          exact hcache
        simp only [List.foldl_cons]
        exact ih (cacheStep cache a) hmem' hmax' hcache'

/-- C5: when a device id `d` has readings in the batch and one reading `r`
for `d` is strictly newer than every other reading for `d`, the reduction
retains exactly `r`, whatever the iteration order (every permutation of
the batch gives the same cache entry). -/
theorem cacheBatch_retains_latest (l : List StatusData) (d : String) (r : StatusData)
    (hd : d ≠ "") (hrd : r.deviceId = d) (hmem : r ∈ l)
    (hmax : ∀ x, x ∈ l → x.deviceId = d → x ≠ r →
      pyStrLt x.dateTime.data r.dateTime.data = true) :
    cacheBatch l d = Option.some r ∧
      ∀ l', l.Perm l' → cacheBatch l' d = Option.some r := by
  constructor
  · exact cacheFold_latest r d hd hrd l (fun _ => Option.none) hmem hmax (Or.inl rfl)
  · intro l' hperm
    exact cacheFold_latest r d hd hrd l' (fun _ => Option.none)
      (hperm.mem_iff.mp hmem)
      (fun x hx => hmax x (hperm.mem_iff.mpr hx))
      (Or.inl rfl)

/-- Witness for C5: three readings for device "X" at t1 < t2 < t3,
iterated with the latest in the middle; exactly the t3 reading is
retained. -/
theorem cacheBatch_retains_latest_witness :
    cacheBatch
        [⟨"X", "2024-05-01T10:00:00Z", 1⟩, ⟨"X", "2024-05-01T10:40:00Z", 3⟩,
         ⟨"X", "2024-05-01T10:20:00Z", 2⟩] "X"
      = Option.some ⟨"X", "2024-05-01T10:40:00Z", 3⟩ :=
  (cacheBatch_retains_latest
    [⟨"X", "2024-05-01T10:00:00Z", 1⟩, ⟨"X", "2024-05-01T10:40:00Z", 3⟩,
     ⟨"X", "2024-05-01T10:20:00Z", 2⟩] "X" ⟨"X", "2024-05-01T10:40:00Z", 3⟩
    (by decide) (by decide) (by decide) (by decide)).1

/-! ## Geofence membership (point_in_polygon lines 238-262, get_zones_for_location lines 264-282)

Python floats are modelled as exact rationals; on the integer-coordinate
inputs of the claims every float operation in the source is exact.  The
source's `xinters` variable persists across loop iterations and is only
assigned under `p1y != p2y`; it is threaded through the loop state (its
initial value is irrelevant: the branch reading it unassigned is
unreachable, since it requires `min < y ≤ max` with `p1y == p2y`). -/

structure Pt where
  x : ℚ
  y : ℚ
deriving DecidableEq, Repr

/-- One edge test of the ray-casting loop (lines 253-259).  State is
`(xinters, inside)`. -/
def pipStep (x y : ℚ) (p1 p2 : Pt) (st : ℚ × Bool) : ℚ × Bool :=
  if y > min p1.y p2.y ∧ y ≤ max p1.y p2.y ∧ x ≤ max p1.x p2.x then
    let xint := if p1.y ≠ p2.y then (y - p1.y) * (p2.x - p1.x) / (p2.y - p1.y) + p1.x
      else st.1
    if p1.x = p2.x ∨ x ≤ xint then (xint, !st.2) else (xint, st.2)
  else st

/-- The edge loop: `p2` runs over `tail ++ [head]`, `p1` trails behind. -/
def pipLoop (x y : ℚ) (p1 : Pt) (ps : List Pt) (st : ℚ × Bool) : ℚ × Bool :=
  match ps with
  | [] => st
  | p2 :: rest => pipLoop x y p2 rest (pipStep x y p1 p2 st)

/-- point_in_polygon(point_lat, point_lon, polygon_points): ray casting
with the even-odd rule; polygons with fewer than 3 vertices never match. -/
def point_in_polygon (pointLat pointLon : ℚ) (poly : List Pt) : Bool :=
  if poly.length < 3 then false
  else
    match poly with
    | [] => false
    | p0 :: rest => (pipLoop pointLon pointLat p0 (rest ++ [p0]) (0, false)).2

/-- The spec's square polygon (x = longitude, y = latitude). -/
def sqPoly : List Pt := [⟨0, 0⟩, ⟨0, 10⟩, ⟨10, 10⟩, ⟨10, 0⟩]

/-- C6: on the square, (5,5) is inside and (15,15) outside; an edge
toggles the parity only when the query's y lies in the half-open window
(min of edge ys, max of edge ys] — strict at the lower bound, inclusive at
the upper — so at each vertex of the square, of the two adjacent edges
sharing that vertex at the query height, at most one toggles (the shared
vertex is counted at most once). -/
theorem pip_square_spec :
    point_in_polygon 5 5 sqPoly = true ∧
    point_in_polygon 15 15 sqPoly = false ∧
    (∀ (x y : ℚ) (p1 p2 : Pt) (st : ℚ × Bool),
      (pipStep x y p1 p2 st).2 ≠ st.2 →
      min p1.y p2.y < y ∧ y ≤ max p1.y p2.y) ∧
    (∀ (x : ℚ) (s1 s2 : ℚ × Bool),
      ¬ ((pipStep x 0 ⟨10, 0⟩ ⟨0, 0⟩ s1).2 ≠ s1.2 ∧
         (pipStep x 0 ⟨0, 0⟩ ⟨0, 10⟩ s2).2 ≠ s2.2)) ∧
    (∀ (x : ℚ) (s1 s2 : ℚ × Bool),
      ¬ ((pipStep x 10 ⟨0, 0⟩ ⟨0, 10⟩ s1).2 ≠ s1.2 ∧
         (pipStep x 10 ⟨0, 10⟩ ⟨10, 10⟩ s2).2 ≠ s2.2)) := by
  have hwin : ∀ (x y : ℚ) (p1 p2 : Pt) (st : ℚ × Bool),
      (pipStep x y p1 p2 st).2 ≠ st.2 → min p1.y p2.y < y ∧ y ≤ max p1.y p2.y := by
    intro x y p1 p2 st h
    unfold pipStep at h
    by_cases hc : y > min p1.y p2.y ∧ y ≤ max p1.y p2.y ∧ x ≤ max p1.x p2.x
    · exact ⟨hc.1, hc.2.1⟩
    · rw [if_neg hc] at h
      exact absurd rfl h
  refine ⟨by decide, by decide, hwin, ?_, ?_⟩
  · intro x s1 s2 ⟨h1, _⟩
    have hw := hwin x 0 ⟨10, 0⟩ ⟨0, 0⟩ s1 h1
    have h0 := hw.1
    simp at h0
  · intro x s1 s2 ⟨_, h2⟩
    have hw := hwin x 10 ⟨0, 10⟩ ⟨10, 10⟩ s2 h2
    have h0 := hw.1
    simp at h0

/-- Witness for C6's tie-break clause at a toggling edge of the square:
the right-hand edge toggles for query point (5,5), whose y lies in the
half-open window (0, 10]. -/
theorem pip_square_spec_witness :
    min (10 : ℚ) 0 < 5 ∧ (5 : ℚ) ≤ max 10 0 :=
  pip_square_spec.2.2.1 5 5 ⟨10, 10⟩ ⟨10, 0⟩ (0, false) (by decide)

/-- A zone as read by get_zones_for_location: display name and boundary
points. -/
structure Zone where
  name : String
  points : List Pt
deriving DecidableEq, Repr

/-- Python's `', '.join`. -/
def joinComma : List String → String
  | [] => ""
  | [s] => s
  | s :: rest => s ++ ", " ++ joinComma rest

/-- get_zones_for_location (lines 264-282): a falsy coordinate (0 models
Python float 0.0) short-circuits to ""; otherwise join the names of the
zones whose nonempty point list contains the point and whose name is
nonempty. -/
def get_zones_for_location (zones : List Zone) (latitude longitude : ℚ) : String :=
  if latitude = 0 ∨ longitude = 0 then ""
  else
    joinComma (zones.filterMap (fun z =>
      if z.points ≠ [] ∧ point_in_polygon latitude longitude z.points = true ∧ z.name ≠ ""
      then Option.some z.name else Option.none))

/-- C10: a location with latitude 0 or longitude 0 (either coordinate
alone) yields the empty zone result without any polygon being consulted,
whatever the zone table holds. -/
theorem zones_zero_coordinate_shortcircuit (zones : List Zone) (lat lon : ℚ)
    (h : lat = 0 ∨ lon = 0) : get_zones_for_location zones lat lon = "" := by
  unfold get_zones_for_location
  rw [if_pos h]

/-- Witness for C10: the point (lat 0, lon 3) lies geometrically inside
the zone's square, yet the lookup returns "". -/
theorem zones_zero_coordinate_shortcircuit_witness :
    point_in_polygon 0 3 [⟨-5, -5⟩, ⟨-5, 5⟩, ⟨5, 5⟩, ⟨5, -5⟩] = true ∧
    get_zones_for_location
        [⟨"EquatorZone", [⟨-5, -5⟩, ⟨-5, 5⟩, ⟨5, 5⟩, ⟨5, -5⟩]⟩] 0 3 = "" :=
  ⟨by decide,
    zones_zero_coordinate_shortcircuit
      [⟨"EquatorZone", [⟨-5, -5⟩, ⟨-5, 5⟩, ⟨5, 5⟩, ⟨5, -5⟩]⟩] 0 3 (Or.inl rfl)⟩

/-! ## Roster CSV parsing (parse_csv_updates, lines 930-988)

Shared character-list helpers modelling the Python string operations. -/

/-- Python str.strip(): drop whitespace from both ends. -/
def stripList (l : List Char) : List Char :=
  ((l.dropWhile Char.isWhitespace).reverse.dropWhile Char.isWhitespace).reverse

/-- Python str.split(sep) for a one-character separator. -/
def splitOnChar (c : Char) : List Char → List (List Char)
  | [] => [[]]
  | a :: rest =>
    let r := splitOnChar c rest
    if a = c then [] :: r
    else
      match r with
      | h :: t => (a :: h) :: t
      | [] => [[a]]

/-- Tokens of one roster data line (line 964): strip the line, remove any
remaining CR/LF characters, split on commas. -/
def lineTokens (line : String) : List (List Char) :=
  splitOnChar ','
    ((stripList line.data).filter (fun c => (c.toNat != 13) && (c.toNat != 10)))

/-- Parse one roster data line (lines 962-977): an update dict is built
iff the line splits into exactly 5 comma-separated fields; otherwise the
line is logged with its line number and skipped. -/
def parse_line (line : String) : Option VehicleUpdate :=
  let tokens := lineTokens line
  if h : tokens.length = 5 then
    Option.some
      { serial := String.mk (stripList (tokens.get ⟨0, by omega⟩))
        extId := String.mk (stripList (tokens.get ⟨1, by omega⟩))
        vin := String.mk (stripList (tokens.get ⟨2, by omega⟩))
        name := String.mk (stripList (tokens.get ⟨3, by omega⟩))
        groups := (splitOnChar '|' (tokens.get ⟨4, by omega⟩)).filterMap
          (fun g => if stripList g ≠ [] then Option.some (String.mk (stripList g))
            else Option.none) }
  else Option.none

/-- The whole data-line loop: well-formed rows are collected in order,
malformed rows contribute nothing and never abort the loop. -/
def parse_csv_lines (lines : List String) : List VehicleUpdate :=
  lines.filterMap parse_line

/-- C8: a roster line is accepted iff it has exactly 5 comma-separated
fields, and a malformed line anywhere in the file is skipped while every
other line is still processed (removing a malformed line does not change
the parse result). -/
theorem parse_line_iff_five_fields :
    (∀ line, (parse_line line).isSome = true ↔ (lineTokens line).length = 5) ∧
    (∀ (pre : List String) (bad : String) (post : List String),
      (lineTokens bad).length ≠ 5 →
      parse_csv_lines (pre ++ bad :: post) = parse_csv_lines (pre ++ post)) := by
  have h1 : ∀ line, (parse_line line).isSome = true ↔ (lineTokens line).length = 5 := by
    intro line
    unfold parse_line
    by_cases h : (lineTokens line).length = 5
    · rw [dif_pos h]
      simp [h]
    · rw [dif_neg h]
      simp [h]
  refine ⟨h1, ?_⟩
  intro pre bad post hbad
  have hnone : parse_line bad = Option.none := by
    unfold parse_line
    rw [dif_neg hbad]
  unfold parse_csv_lines
  rw [List.filterMap_append, List.filterMap_append, List.filterMap_cons, hnone]

/-- Witness for C8: a 2-field line between two well-formed lines is
skipped and the rest of the file still parses. -/
theorem parse_line_iff_five_fields_witness :
    (lineTokens "x,y").length ≠ 5 ∧
    parse_csv_lines ["a,b,c,d,e", "x,y", "1,2,3,4,5"] =
      parse_csv_lines ["a,b,c,d,e", "1,2,3,4,5"] :=
  ⟨by decide, parse_line_iff_five_fields.2 ["a,b,c,d,e"] "x,y" ["1,2,3,4,5"] (by decide)⟩

/-! ## Duration normalization (format_duration, lines 348-418) -/

/-- Python str.isdigit (ASCII digits): nonempty and all digits. -/
def isdigitL (l : List Char) : Bool := !l.isEmpty && l.all Char.isDigit

def digitsToNat (l : List Char) : Nat := l.foldl (fun a c => a * 10 + (c.toNat - 48)) 0

/-- An exact decimal value `num / den` (`den` a positive power of ten),
the value of a parsed Python float literal.  The claims' inputs are exact
in IEEE doubles, so exact arithmetic models them faithfully. -/
structure DecVal where
  num : Int
  den : Nat
deriving DecidableEq, Repr

/-- Python float() on strings, restricted to decimal literals
[+-]?digits[.digits] (exponent/inf/nan forms never reach this code).
None models ValueError. -/
def pyFloatCore (l : List Char) : Option DecVal :=
  match splitOnChar '.' l with
  | [ip] =>
    if isdigitL ip then Option.some ⟨(digitsToNat ip : Int), 1⟩ else Option.none
  | [ip, fp] =>
    if (ip.all Char.isDigit && fp.all Char.isDigit) && !(ip.isEmpty && fp.isEmpty) then
      Option.some ⟨(digitsToNat (ip ++ fp) : Int), 10 ^ fp.length⟩
    else Option.none
  | _ => Option.none

def pyFloat? (l0 : List Char) : Option DecVal :=
  let l1 := stripList l0
  match l1 with
  | c :: rest =>
    if c.toNat = 45 then (pyFloatCore rest).map (fun v => ⟨-v.num, v.den⟩)
    else if c.toNat = 43 then pyFloatCore rest
    else pyFloatCore l1
  | [] => Option.none

/-- Python int() on strings: optional sign and digits; None models
ValueError. -/
def pyInt? (l0 : List Char) : Option Int :=
  let l1 := stripList l0
  match l1 with
  | c :: rest =>
    if c.toNat = 45 then
      if isdigitL rest then Option.some (-(digitsToNat rest : Int)) else Option.none
    else if c.toNat = 43 then
      if isdigitL rest then Option.some (digitsToNat rest : Int) else Option.none
    else if isdigitL l1 then Option.some (digitsToNat l1 : Int) else Option.none
  | [] => Option.none

/-- Python int() on a float value: truncation toward zero. -/
def pyTrunc (v : DecVal) : Int := Int.tdiv v.num (Int.ofNat v.den)

/-- Python f"{n:02d}". -/
def pad2 (n : Int) : String :=
  if 0 ≤ n ∧ n < 10 then "0" ++ toString n else toString n

/-- Lines 409-414: divmod total seconds into HH:MM:SS (Python // and % are
floor division and nonnegative remainder for a positive divisor). -/
def hmsString (total : Int) : String :=
  pad2 (Int.fdiv total 3600) ++ ":" ++ pad2 (Int.fdiv (Int.emod total 3600) 60) ++ ":" ++
    pad2 (Int.emod total 60)

/-- Python str.strip of double and single quote characters (line 369). -/
def stripQuotesL (l : List Char) : List Char :=
  let q := fun c : Char => (c.toNat == 34) || (c.toNat == 39)
  ((l.dropWhile q).reverse.dropWhile q).reverse

/-- Python s.rfind('.', 0, bound): greatest index below bound holding a
dot, None when absent. -/
def rfindDotBefore (l : List Char) (bound : Nat) : Option Nat :=
  (List.range bound).reverse.find? (fun i => l.get? i == Option.some '.')

/-- The day-prefix handling (lines 373-389): when the string has both a
dot and a colon and some dot precedes the first colon, try float() on the
part before that dot; on success convert days to seconds and continue with
the rest, on ValueError continue with the original string. -/
def fdDays (l : List Char) : Int × List Char :=
  if l.contains '.' && l.contains ':' then
    match l.findIdx? (fun c => c == ':') with
    | Option.some fc =>
      match rfindDotBefore l fc with
      | Option.some di =>
        match pyFloat? (l.take di) with
        | Option.some days =>
          (pyTrunc ⟨days.num * (24 * 3600), days.den⟩, l.drop (di + 1))
        | Option.none => (0, l)
      | Option.none => (0, l)
    | Option.none => (0, l)
  else (0, l)

/-- The clock-part handling (lines 391-414): hours and minutes via int(),
optional seconds via int(float(.)); None models an exception escaping to
the outer handler. -/
def fdTimePart (extra : Int) (l : List Char) : Option String :=
  if l.contains ':' then
    match splitOnChar ':' l with
    | p0 :: p1 :: rest =>
      match pyInt? p0 with
      | Option.none => Option.none
      | Option.some h =>
        match pyInt? p1 with
        | Option.none => Option.none
        | Option.some m =>
          match rest with
          | [] => Option.some (hmsString (extra + h * 3600 + m * 60))
          | p2 :: _ =>
            match pyFloat? p2 with
            | Option.none => Option.none
            | Option.some q =>
              Option.some (hmsString (extra + h * 3600 + m * 60 + pyTrunc q))
    | _ => Option.some (hmsString extra)
  else Option.some (hmsString extra)

/-- format_duration on a truthy string: the raw-milliseconds branch
(lines 360-366, on `duration_str.replace('.','').isdigit()`), then quote
stripping, day prefix and clock part; a modelled exception is caught by
the outer handler (lines 416-418) and yields "". -/
def fdString (s : String) : String :=
  let ds0 := stripList s.data
  if isdigitL (ds0.filter (fun c => c.toNat != 46)) then
    match pyFloat? ds0 with
    | Option.some q => hmsString (pyTrunc ⟨q.num, q.den * 1000⟩)
    | Option.none => ""
  else
    let ds1 := stripQuotesL ds0
    let ed := fdDays ds1
    match fdTimePart ed.1 ed.2 with
    | Option.some out => out
    | Option.none => ""

/-- format_duration inputs: Python None, a nonnegative integer, a
datetime.time object, or a string.  Falsy inputs (None, 0, "") return ""
at line 351; time objects are formatted directly (lines 355-356). -/
inductive DurationInput where
  | nullv
  | num (n : Nat)
  | timeObj (h m s : Nat)
  | str (s : String)

def format_duration : DurationInput → String
  | DurationInput.nullv => ""
  | DurationInput.num n => if n = 0 then "" else fdString (toString n)
  | DurationInput.timeObj h m s =>
    pad2 (Int.ofNat h) ++ ":" ++ pad2 (Int.ofNat m) ++ ":" ++ pad2 (Int.ofNat s)
  | DurationInput.str s => if s = "" then "" else fdString s

/-- C7 counterexample: the unparsable input "abc" normalizes to
"00:00:00" (the zero duration), not to "". -/
theorem format_duration_abc_not_empty :
    format_duration (DurationInput.str "abc") = "00:00:00" ∧
    ("00:00:00" : String) ≠ "" := by
  constructor
  · decide
  · decide

/-- C7 (amended): 3600000 (raw milliseconds) normalizes to "01:00:00",
"1.02:30:15" to "26:30:15", absent/empty input to "", and an input on
which an int()/float() parse raises is caught and yields "" (e.g.
"12:xx"); the function is total (every exception path is caught); but an
unparsable string with no clock or day structure yields the zero duration
"00:00:00" (e.g. "abc") rather than "". -/
theorem format_duration_spec :
    format_duration (DurationInput.num 3600000) = "01:00:00" ∧
    format_duration (DurationInput.str "1.02:30:15") = "26:30:15" ∧
    format_duration DurationInput.nullv = "" ∧
    format_duration (DurationInput.str "") = "" ∧
    format_duration (DurationInput.str "12:xx") = "" ∧
    format_duration (DurationInput.str "abc") = "00:00:00" := by
  refine ⟨by decide, by decide, rfl, by decide, by decide, by decide⟩

/-! ## Timestamp formatting (format_datetime, lines 302-346)

The source preprocesses the string (lines 316-321), parses it with the
standard library's `datetime.fromisoformat`, converts to US/Eastern with
pytz and formats date and time; every exception is caught (lines 343-346)
and yields `("", "")`. -/

/-- A parsed datetime value: civil components plus an optional fixed UTC
offset in seconds (`none` = naive). -/
structure PyDt where
  year : Nat
  month : Nat
  day : Nat
  hour : Nat
  minute : Nat
  second : Nat
  tzOffsetSeconds : Option Int
deriving DecidableEq, Repr

/-- The string preprocessing of lines 316-321: a trailing "Z" becomes
"+00:00"; otherwise, a string containing "T" with no "+" anywhere, no "-"
in its last six characters and not already ending in "+00:00" gets
"+00:00" appended. -/
def listEndsWith (l suffix : List Char) : Bool :=
  (l.reverse.take suffix.length) == suffix.reverse

def preprocessDt (s : String) : String :=
  let l := s.data
  if listEndsWith l ['Z'] then String.mk (l.dropLast ++ ('+' :: "00:00".data))
  else if !listEndsWith l ('+' :: "00:00".data) && l.contains 'T' && !l.contains '+' &&
      !((l.reverse.take 6).contains '-') then String.mk (l ++ ('+' :: "00:00".data))
  else s

/-- Two decimal digits. -/
def parse2 : List Char → Option (Nat × List Char)
  | a :: b :: rest =>
    if a.isDigit && b.isDigit then
      Option.some ((a.toNat - 48) * 10 + (b.toNat - 48), rest)
    else Option.none
  | _ => Option.none

/-- Four decimal digits. -/
def parse4 : List Char → Option (Nat × List Char)
  | a :: b :: c :: d :: rest =>
    if a.isDigit && b.isDigit && c.isDigit && d.isDigit then
      Option.some ((a.toNat - 48) * 1000 + (b.toNat - 48) * 100 +
        (c.toNat - 48) * 10 + (d.toNat - 48), rest)
    else Option.none
  | _ => Option.none

def isLeapYear (y : Nat) : Bool := (y % 4 == 0 && y % 100 != 0) || (y % 400 == 0)

def daysInMonth (y m : Nat) : Nat :=
  if m = 2 then (if isLeapYear y then 29 else 28)
  else if m = 4 ∨ m = 6 ∨ m = 9 ∨ m = 11 then 30 else 31

/-- Modelled from the spec: CPython's `_parse_hh_mm_ss_ff` (standard
library `datetime`, not part of this repository): the exact shapes
HH, HH:MM, HH:MM:SS, HH:MM:SS.fff, HH:MM:SS.ffffff (fraction parsed and
discarded here, since the source never formats sub-second fields). -/
def parseHMSFF (l : List Char) : Option (Nat × Nat × Nat) :=
  match parse2 l with
  | Option.none => Option.none
  | Option.some (hh, r1) =>
    match r1 with
    | [] => Option.some (hh, 0, 0)
    | ':' :: r2 =>
      match parse2 r2 with
      | Option.none => Option.none
      | Option.some (mm, r3) =>
        match r3 with
        | [] => Option.some (hh, mm, 0)
        | ':' :: r4 =>
          match parse2 r4 with
          | Option.none => Option.none
          | Option.some (ss, r5) =>
            match r5 with
            | [] => Option.some (hh, mm, ss)
            | '.' :: r6 =>
              if (r6.length == 3 || r6.length == 6) && r6.all Char.isDigit then
                Option.some (hh, mm, ss)
              else Option.none
            | _ => Option.none
        | _ => Option.none
    | _ => Option.none

/-- CPython's timezone split inside `_parse_isoformat_time`: the position
after a '-' when present, else after a '+'. -/
def tzSplitPos (l : List Char) : Option Nat :=
  match l.findIdx? (fun c => c == '-') with
  | Option.some i => Option.some i
  | Option.none => l.findIdx? (fun c => c == '+')

/-- Modelled from the spec: the time-of-day part of CPython's
`datetime.fromisoformat` — clock components plus optional ±HH:MM[:SS]
offset (the offset substring must be 5, 8 or 15 characters long). -/
def parseIsoTime (l : List Char) : Option (Nat × Nat × Nat × Option Int) :=
  match tzSplitPos l with
  | Option.none =>
    match parseHMSFF l with
    | Option.none => Option.none
    | Option.some (h, m, s) => Option.some (h, m, s, Option.none)
  | Option.some i =>
    let sign : Int := if l.get? i == Option.some '-' then -1 else 1
    let tzstr := l.drop (i + 1)
    match parseHMSFF (l.take i) with
    | Option.none => Option.none
    | Option.some (h, m, s) =>
      if tzstr.length == 5 || tzstr.length == 8 || tzstr.length == 15 then
        match parseHMSFF tzstr with
        | Option.none => Option.none
        | Option.some (th, tm, ts) =>
          Option.some (h, m, s,
            Option.some (sign * ((th : Int) * 3600 + (tm : Int) * 60 + (ts : Int))))
      else Option.none

/-- Modelled from the spec: CPython's `datetime.fromisoformat` (standard
library, not part of this repository) for the basic grammar
`YYYY-MM-DD[<sep>HH[:MM[:SS[.fff[fff]]]][±HH:MM[:SS]]]`, with full range
validation; `none` models ValueError. -/
def fromisoformat (s : String) : Option PyDt :=
  match parse4 s.data with
  | Option.none => Option.none
  | Option.some (y, r1) =>
    match r1 with
    | '-' :: r2 =>
      match parse2 r2 with
      | Option.none => Option.none
      | Option.some (mo, r3) =>
        match r3 with
        | '-' :: r4 =>
          match parse2 r4 with
          | Option.none => Option.none
          | Option.some (d, r5) =>
            if 1 ≤ y ∧ 1 ≤ mo ∧ mo ≤ 12 ∧ 1 ≤ d ∧ d ≤ daysInMonth y mo then
              match r5 with
              | [] => Option.some ⟨y, mo, d, 0, 0, 0, Option.none⟩
              | _sep :: r6 =>
                match parseIsoTime r6 with
                | Option.none => Option.none
                | Option.some (h, mi, ss, off) =>
                  let offOk : Bool :=
                    match off with
                    | Option.none => true
                    | Option.some o => decide (-86400 < o) && decide (o < 86400)
                  if h < 24 ∧ mi < 60 ∧ ss < 60 ∧ offOk = true then
                    Option.some ⟨y, mo, d, h, mi, ss, off⟩
                  else Option.none
            else Option.none
        | _ => Option.none
    | _ => Option.none

/-- Days since 1970-01-01 of a civil date (Gregorian, proleptic). -/
def daysFromCivil (y0 : Int) (m d : Nat) : Int :=
  let y := if m ≤ 2 then y0 - 1 else y0
  let era := Int.fdiv y 400
  let yoe := y - era * 400
  let mp : Int := if 2 < m then (m : Int) - 3 else (m : Int) + 9
  let doy := Int.fdiv (153 * mp + 2) 5 + (d : Int) - 1
  let doe := yoe * 365 + Int.fdiv yoe 4 - Int.fdiv yoe 100 + doy
  era * 146097 + doe - 719468

/-- Civil date of a day count since 1970-01-01. -/
def civilFromDays (z0 : Int) : Int × Nat × Nat :=
  let z := z0 + 719468
  let era := Int.fdiv z 146097
  let doe := z - era * 146097
  let yoe := Int.fdiv (doe - Int.fdiv doe 1460 + Int.fdiv doe 36524 - Int.fdiv doe 146096) 365
  let y := yoe + era * 400
  let doy := doe - (365 * yoe + Int.fdiv yoe 4 - Int.fdiv yoe 100)
  let mp := Int.fdiv (5 * doy + 2) 153
  let d := doy - Int.fdiv (153 * mp + 2) 5 + 1
  let m := if mp < 10 then mp + 3 else mp - 9
  (if m ≤ 2 then y + 1 else y, m.toNat, d.toNat)

/-- First Sunday on or after day `z` (day 0 = Thursday 1970-01-01). -/
def sundayOnOrAfter (z : Int) : Int := z + Int.emod (0 - (z + 4)) 7

/-- Modelled from the spec: pytz's US/Eastern offset (external library,
not part of this repository), post-2007 rule: EDT (UTC-4) from 2:00 EST
on the second Sunday of March to 2:00 EDT on the first Sunday of
November, else EST (UTC-5).  `t` is in seconds since the epoch, UTC. -/
def easternOffsetSec (t : Int) : Int :=
  let y := (civilFromDays (Int.fdiv t 86400)).1
  let dstStart := sundayOnOrAfter (daysFromCivil y 3 8) * 86400 + 7 * 3600
  let dstEnd := sundayOnOrAfter (daysFromCivil y 11 1) * 86400 + 6 * 3600
  if dstStart ≤ t ∧ t < dstEnd then -4 * 3600 else -5 * 3600

/-- Zero-padded 4-digit year (strftime %Y for years in 1..9999). -/
def pad4 (n : Int) : String :=
  if 0 ≤ n ∧ n < 10 then "000" ++ toString n
  else if 0 ≤ n ∧ n < 100 then "00" ++ toString n
  else if 0 ≤ n ∧ n < 1000 then "0" ++ toString n
  else toString n

/-- strftime '%I:%M:%S %p': zero-padded 12-hour clock with AM/PM. -/
def fmt12 (h mi ss : Nat) : String :=
  let h12 := if h % 12 = 0 then 12 else h % 12
  pad2 (Int.ofNat h12) ++ ":" ++ pad2 (Int.ofNat mi) ++ ":" ++ pad2 (Int.ofNat ss) ++
    (if h < 12 then " AM" else " PM")

/-- Lines 326-341: localize a naive value as UTC, convert to US/Eastern,
format as MM/DD/YYYY and 12-hour hh:mm:ss AM/PM. -/
def fmtEastern (dt : PyDt) : String × String :=
  let off := dt.tzOffsetSeconds.getD 0
  let utc := daysFromCivil (dt.year : Int) dt.month dt.day * 86400 +
    (dt.hour : Int) * 3600 + (dt.minute : Int) * 60 + (dt.second : Int) - off
  let loc := utc + easternOffsetSec utc
  let z := Int.fdiv loc 86400
  let secOfDay := (Int.emod loc 86400).toNat
  let c := civilFromDays z
  (pad2 (Int.ofNat c.2.1) ++ "/" ++ pad2 (Int.ofNat c.2.2) ++ "/" ++ pad4 c.1,
    fmt12 (secOfDay / 3600) (secOfDay % 3600 / 60) (secOfDay % 60))

/-- format_datetime inputs: Python None, a datetime object, or a string;
falsy inputs (None, "") return two empty strings at lines 305-306. -/
inductive DtInput where
  | nullv
  | dt (d : PyDt)
  | str (s : String)

def format_datetime : DtInput → String × String
  | DtInput.nullv => ("", "")
  | DtInput.dt d => fmtEastern d
  | DtInput.str s =>
    if s = "" then ("", "")
    else
      match fromisoformat (preprocessDt s) with
      | Option.none => ("", "")
      | Option.some d => fmtEastern d

/-- C9: the timestamp formatter returns ("", "") for every absent (None
or empty) input and for every string the (preprocessed) ISO parse rejects;
it never raises — every exception path of the source is the caught branch
yielding ("", ""), so a record with a bad timestamp still gets both
columns, as empty strings. -/
theorem format_datetime_error_paths :
    format_datetime DtInput.nullv = ("", "") ∧
    format_datetime (DtInput.str "") = ("", "") ∧
    (∀ s, fromisoformat (preprocessDt s) = Option.none →
      format_datetime (DtInput.str s) = ("", "")) := by
  refine ⟨rfl, rfl, ?_⟩
  intro s h
  simp only [format_datetime]
  by_cases hs : s = ""
  · rw [if_pos hs]
  · rw [if_neg hs, h]

/-- Witness for C9 at a concrete unparsable timestamp. -/
theorem format_datetime_error_paths_witness :
    format_datetime (DtInput.str "not a timestamp") = ("", "") :=
  format_datetime_error_paths.2.2 "not a timestamp" (by decide)
